import Mathlib

/-!
Shallow embedding of the internship-tracker application core (src/app.py).
Python strings are modelled as `List Char` (ASCII fragment); Python's
`str.split`, `str.strip`, `str.isdigit`, `int(...)` and the `in` substring
test are modelled by executable functions below, translated from their
documented behaviour as used by the source.
-/

namespace App

/-- Python strings, modelled as lists of characters. -/
abbrev Str := List Char

/-- Python whitespace characters stripped by `str.strip()` and matched by
the regex class backslash-s (ASCII fragment). -/
def isPySpace (c : Char) : Bool :=
  c = ' ' || c = '\t' || c = '\n' || c = '\r' || c = '\x0b' || c = '\x0c'

/-- Python `s.strip()`: remove leading and trailing whitespace. -/
def pyStrip (s : Str) : Str :=
  ((s.dropWhile isPySpace).reverse.dropWhile isPySpace).reverse

/-- Python `s.split(sep)` for a one-character separator: the list of chunks
between occurrences of `sep`; always nonempty, `"".split(sep) == [""]`. -/
def pySplit (sep : Char) : Str → List Str
  | [] => [[]]
  | c :: cs =>
    if c = sep then [] :: pySplit sep cs
    else (c :: (pySplit sep cs).headI) :: (pySplit sep cs).tail

/-- Python `s.isdigit()` (ASCII fragment): nonempty and all decimal digits. -/
def pyIsDigitStr (s : Str) : Bool :=
  !s.isEmpty && s.all Char.isDigit

/-- Numeric value of a digit string. -/
def digitsVal (s : Str) : Nat :=
  s.foldl (fun a c => a * 10 + (c.toNat - '0'.toNat)) 0

/-- Continuation of a PEP 515 digit run after its first digit: empty, or a
digit, or a single grouping underscore followed by a digit, and so on. A
trailing or doubled underscore is rejected. -/
def pyIntDigitsRest : Str → Bool
  | [] => true
  | ['_'] => false
  | '_' :: c :: cs => c.isDigit && pyIntDigitsRest cs
  | c :: cs => c.isDigit && pyIntDigitsRest cs

/-- A PEP 515 integer literal body: a nonempty digit run in which single
underscores may appear between digits (`int("1_0") == 10`), but not at
either end, next to the sign, or doubled. -/
def pyIntValidDigits : Str → Bool
  | [] => false
  | c :: cs => c.isDigit && pyIntDigitsRest cs

/-- Numeric value of a PEP 515 digit run: the grouping underscores are
ignored. -/
def pyIntVal (ds : Str) : Nat :=
  digitsVal (ds.filter (fun c => (c ≠ '_' : Bool)))

/-- Python `int(s)` for strings: strip whitespace, optional single sign,
then a nonempty run of decimal digits with optional PEP 515 underscore
grouping between digits; anything else raises (None). -/
def pyInt (s : Str) : Option Int :=
  match pyStrip s with
  | '-' :: ds => if pyIntValidDigits ds then some (-(pyIntVal ds : Int)) else none
  | '+' :: ds => if pyIntValidDigits ds then some (pyIntVal ds : Int) else none
  | ds => if pyIntValidDigits ds then some (pyIntVal ds : Int) else none

/-- Python `s.lower()` (ASCII fragment). -/
def lowerStr (s : Str) : Str := s.map Char.toLower

/-- Python `sub in s` substring test: `strStartsWith s t` is true when `t`
is an initial segment of `s`. -/
def strStartsWith : Str → Str → Bool
  | _, [] => true
  | [], _ :: _ => false
  | c :: cs, d :: ds => c = d && strStartsWith cs ds

/-- Python `sub in s`: some suffix of `s` starts with `sub`. -/
def strContains (s sub : Str) : Bool :=
  strStartsWith s sub ||
    match s with
    | [] => false
    | _ :: cs => strContains cs sub

/-- src/app.py lines 267-274, `validate_stipend`: the empty string is valid;
otherwise the string must split on the dash into exactly two parts, each of
which, after stripping, is a nonempty digit string. -/
def validate_stipend (stipend : Str) : Bool :=
  if stipend.isEmpty then true
  else
    let parts := pySplit '-' stipend
    parts.length = 2 && parts.all (fun part => pyIsDigitStr (pyStrip part))

/-- A Python date or datetime value, as stored in an application row's
Deadline field: `date d` is a bare `datetime.date`, `datetime d t` a
`datetime.datetime` (day plus time-of-day; `datetime.min.time()` is `t = 0`). -/
inductive PyTimeVal where
  | date (d : Nat)
  | datetime (d : Nat) (t : Nat)
deriving DecidableEq

/-- One row of the applications DataFrame (src/app.py lines 319-324): the
fields written by the new-application form. `status`/`deadline` are `none`
when the corresponding column is absent from the record. -/
structure AppRow where
  companyName : Str := []
  status : Option Str := none
  deadline : Option PyTimeVal := none
  referralDetails : Str := []
  link : Str := []
  notes : Str := []
deriving DecidableEq

/-- The dictionary returned by `calculate_kpis` (src/app.py line 265). -/
structure KPIs where
  totalApplications : Nat
  rejected : Nat
  inProgress : Nat
deriving DecidableEq

def rejectedStr : Str := "Rejected".toList

def offerReceivedStr : Str := "Offer Received".toList

/-- src/app.py lines 256-265, `calculate_kpis` over the applications
DataFrame. The pandas column test `'Status' not in columns` holds exactly
when no record carries the field; a record with a missing status (NaN)
compares unequal to every string and fails every `isin` test. -/
def calculate_kpis (apps : List AppRow) : KPIs :=
  if apps.isEmpty then ⟨0, 0, 0⟩
  else if apps.all (fun r => r.status = none) then ⟨apps.length, 0, apps.length⟩
  else
    ⟨apps.length,
     (apps.filter (fun r => r.status = some rejectedStr)).length,
     (apps.filter (fun r =>
       !(r.status = some offerReceivedStr || r.status = some rejectedStr))).length⟩

/-- src/app.py lines 217-219: a bare `date` Deadline is combined with
`datetime.min.time()` into a midnight datetime before insertion; datetimes
and other values pass through unchanged. -/
def normalizeDeadline (v : PyTimeVal) : PyTimeVal :=
  match v with
  | .date d => .datetime d 0
  | x => x

/-- src/app.py lines 215-220: the document value inserted for one row. -/
def rowDocValue (r : AppRow) : AppRow :=
  { r with deadline := r.deadline.map normalizeDeadline }

/-- src/app.py lines 210-222, `save_applications`: delete every document in
the user's remote applications collection, then insert one document per row
of the in-memory list. The result is the remote collection afterwards,
as a list of document values. -/
def save_applications (remote : List AppRow) (current : List AppRow) : List AppRow :=
  let _ := remote
  current.map rowDocValue

/-- One document of the reviews collection (fields written at
src/app.py lines 435-453, plus the Firestore document id attached by
`load_data` at line 202). -/
structure Review where
  id : Str := []
  userId : Str := []
  company : Str := []
  industry : Str := []
  easeOfProcess : Str := []
  gamifiedAssessments : Str := []
  interviewQuestions : Str := []
  stipendRange : Str := []
  easeOfHiring : Nat := 0
  referralUsed : Str := []
  redFlags : Nat := 0
  department : Str := []
  semester : Nat := 0
  offerOutcome : Str := []
  reviewerName : Str := []
  upvoters : List Str := []
  bookmarkers : List Str := []
deriving DecidableEq

/-- src/app.py lines 450-451: the submitted review dictionary carries the
edited review's upvoters/bookmarkers when editing, and empty lists when
creating. -/
def build_review_data (reviewToEdit : Option Review) (fields : Review) : Review :=
  { fields with
    upvoters := match reviewToEdit with | some r => r.upvoters | none => []
    bookmarkers := match reviewToEdit with | some r => r.bookmarkers | none => [] }

/-- src/app.py lines 238-251 combined with the form at lines 435-454,
`save_review`: when `editIndex` selects an existing review its document is
updated in place (document id unchanged, upvoters/bookmarkers taken from the
cached review); otherwise a new document is appended with empty upvoters and
bookmarkers and a fresh id. The result is the reviews collection afterwards. -/
def submit_review (reviews : List Review) (editIndex : Option Nat)
    (fields : Review) (newId : Str) : List Review :=
  match editIndex with
  | some i =>
    match reviews[i]? with
    | some old => reviews.set i { build_review_data (some old) fields with id := old.id }
    | none => reviews
  | none =>
    let data := { build_review_data none fields with upvoters := [], bookmarkers := [] }
    reviews ++ [{ data with id := newId }]

/-- src/app.py lines 503-522: the upvote/bookmark toggle on one review's
member list. When the user is present the code issues `ArrayRemove` (remove
every occurrence); otherwise `ArrayUnion` (append, since the element is not
already present). -/
def toggle_membership (l : List Str) (u : Str) : List Str :=
  if u ∈ l then l.filter (fun v => v ≠ u) else l ++ [u]

def notSpecifiedStr : Str := "Not Specified".toList

def allStr : Str := "All".toList

/-- src/app.py lines 468-472: parse a review's stipend string for the range
filter. "Not Specified" yields the range 0-0; otherwise the first two
dash-separated chunks are parsed with `int(part.strip())`; a missing second
chunk or a failing parse raises, which the surrounding `except` turns into a
skip (`none`). Chunks beyond the second are ignored. -/
def parseStipend (s : Str) : Option (Int × Int) :=
  if s = notSpecifiedStr then some (0, 0)
  else
    match (pySplit '-' s)[1]? with
    | none => none
    | some p1 =>
      match pyInt (pyStrip (pySplit '-' s).headI), pyInt (pyStrip p1) with
      | some a, some b => some (a, b)
      | _, _ => none

/-- src/app.py lines 473-478: one review's filter predicate — parseable
stipend, case-insensitive company substring match, industry equality unless
"All", and range containment. -/
def reviewPred (companySearch industryFilter : Str) (lo hi : Int) (r : Review) : Bool :=
  match parseStipend r.stipendRange with
  | none => false
  | some (mn, mx) =>
    strContains (lowerStr r.company) (lowerStr companySearch) &&
    (industryFilter = allStr || r.industry = industryFilter) &&
    decide (lo ≤ mn) && decide (mx ≤ hi)

/-- src/app.py lines 465-482: the filtered review list. -/
def filter_reviews (reviews : List Review) (companySearch industryFilter : Str)
    (lo hi : Int) : List Review :=
  reviews.filter (reviewPred companySearch industryFilter lo hi)

def upvoteCount (r : Review) : Nat := r.upvoters.length

/-- The ordering used at src/app.py line 485: `sorted(..., key=len(upvoters),
reverse=True)` places `a` before `b` exactly when `a`'s count is at least
`b`'s; Python's sort is stable, so ties keep input order. -/
def upvoteGE (a b : Review) : Prop := upvoteCount b ≤ upvoteCount a

instance : DecidableRel upvoteGE := fun _ _ => Nat.decLe _ _

instance : IsTotal Review upvoteGE :=
  ⟨fun a b => Nat.le_total (upvoteCount b) (upvoteCount a)⟩

instance : IsTrans Review upvoteGE :=
  ⟨fun _ _ _ hab hbc => Nat.le_trans hbc hab⟩

/-- src/app.py line 485: stable descending sort by upvote count (Python's
`sorted` with `reverse=True` is stable; insertion sort with the reflexive
descending relation computes the same list). -/
def rank_reviews (l : List Review) : List Review :=
  List.insertionSort upvoteGE l

/-- src/app.py line 485: the displayed list is the ranking truncated to 5. -/
def displayed_reviews (l : List Review) : List Review :=
  (rank_reviews l).take 5

/-! Spec-side vocabulary: counts over the application list stated in the
spec's words, independent of the branch structure of `calculate_kpis`. -/

def acceptedStr : Str := "Accepted".toList

/-- Number of applications whose status equals "Rejected". -/
def specRejectedCount (apps : List AppRow) : Nat :=
  apps.countP (fun r => decide (r.status = some rejectedStr))

/-- Number of applications whose status is neither "Offer Received" nor
"Rejected". -/
def specInProgressCount (apps : List AppRow) : Nat :=
  apps.countP (fun r =>
    decide (r.status ≠ some offerReceivedStr ∧ r.status ≠ some rejectedStr))

/-- Number of applications whose status equals "Offer Received". -/
def specOfferCount (apps : List AppRow) : Nat :=
  apps.countP (fun r => decide (r.status = some offerReceivedStr))

/-- Number of applications whose status is "Accepted" or "Offer Received",
the set named by the spec's KPI equation. -/
def specAccOrOfferCount (apps : List AppRow) : Nat :=
  apps.countP (fun r =>
    decide (r.status = some acceptedStr ∨ r.status = some offerReceivedStr))

/-- Whether an optional Deadline value is a bare date (no time part). -/
def isBareDate : Option PyTimeVal → Bool
  | some (.date _) => true
  | _ => false

/-! Helper lemmas. -/

theorem offer_ne_rejected : offerReceivedStr ≠ rejectedStr := by decide

/-- The three status classes used by the KPI computation partition any
application list: in-progress plus rejected plus offer-received counts sum
to the length. -/
theorem kpi_partition (apps : List AppRow) :
    (apps.filter (fun r =>
      !(r.status = some offerReceivedStr || r.status = some rejectedStr))).length +
    (apps.filter (fun r => r.status = some rejectedStr)).length +
    specOfferCount apps = apps.length := by
  induction apps with
  | nil => rfl
  | cons a t ih =>
    cases hbO : decide (a.status = some offerReceivedStr) <;>
      cases hbR : decide (a.status = some rejectedStr)
    case true.true =>
      have hO := of_decide_eq_true hbO
      have hR := of_decide_eq_true hbR
      exact absurd (Option.some.inj (hO.symm.trans hR)) offer_ne_rejected
    all_goals
      simp only [specOfferCount, List.filter_cons, List.countP_cons,
        hbO, hbR] at ih ⊢
      simp at ih ⊢
      omega

/-- Removing one element of a duplicate-free list by filtering shortens it
by exactly one. -/
theorem length_filter_ne_of_nodup (l : List Str) (u : Str)
    (hnd : l.Nodup) (hu : u ∈ l) :
    (l.filter (fun v => (v ≠ u : Bool))).length + 1 = l.length := by
  induction l with
  | nil => cases hu
  | cons a t ih =>
    rcases List.nodup_cons.mp hnd with ⟨hat, hndt⟩
    rcases List.mem_cons.mp hu with rfl | hut
    · simp [List.filter_cons]
      exact fun v hv hvu => hat (hvu ▸ hv)
    · have hne : a ≠ u := fun hau => hat (hau ▸ hut)
      have h := ih hndt hut
      simp [List.filter_cons, hne] at h ⊢
      omega

/-- A one-element application list whose single status is "Accepted". -/
def c1Example : List AppRow := [{ status := some acceptedStr }]

/-- C1 counterexample: for the list with one "Accepted" application, every
record carries a status field, yet in_progress + rejected + (count of
"Accepted" or "Offer Received" entries) is 2 while the total is 1: the
spec's equation fails because "Accepted" entries are already counted as
in-progress. -/
theorem C1_counterexample :
    (∀ r ∈ c1Example, r.status.isSome = true) ∧
    ¬ ((calculate_kpis c1Example).inProgress + (calculate_kpis c1Example).rejected +
        specAccOrOfferCount c1Example = (calculate_kpis c1Example).totalApplications) := by
  decide

/-- C1 (amended): for every application list whose records carry a status
field, the counters of `calculate_kpis` satisfy in_progress + rejected +
(number of entries whose status is "Offer Received") = total. -/
theorem C1_amended (apps : List AppRow) (h : ∀ r ∈ apps, r.status.isSome = true) :
    (calculate_kpis apps).inProgress + (calculate_kpis apps).rejected +
      specOfferCount apps = (calculate_kpis apps).totalApplications := by
  by_cases hemp : apps = []
  · subst hemp; decide
  · obtain ⟨a, ha⟩ := List.exists_mem_of_ne_nil apps hemp
    have hne : apps.isEmpty = false := by simp [hemp]
    have hnotall : apps.all (fun r => r.status = none) = false := by
      refine Bool.eq_false_iff.mpr (fun hall => ?_)
      have h1 := of_decide_eq_true (List.all_eq_true.mp hall a ha)
      have h2 := h a ha
      rw [h1] at h2
      simp at h2
    rw [calculate_kpis, hne]
    simp only [Bool.false_eq_true, if_false, hnotall]
    exact kpi_partition apps

/-- C1 witness: the amended equation holds on a concrete list containing one
"Rejected" and one "Applied" application. -/
theorem C1_witness :
    (∀ r ∈ ([{ status := some rejectedStr },
             { status := some ("Applied".toList) }] : List AppRow),
        r.status.isSome = true) ∧
    (calculate_kpis [{ status := some rejectedStr },
                     { status := some ("Applied".toList) }]).inProgress +
      (calculate_kpis [{ status := some rejectedStr },
                       { status := some ("Applied".toList) }]).rejected +
      specOfferCount [{ status := some rejectedStr },
                      { status := some ("Applied".toList) }] =
      (calculate_kpis [{ status := some rejectedStr },
                       { status := some ("Applied".toList) }]).totalApplications :=
  ⟨by decide, C1_amended _ (by decide)⟩

/-- C3: for every application list, `calculate_kpis` returns total = length,
rejected = count of status "Rejected", in_progress = count of status neither
"Offer Received" nor "Rejected"; on the empty list all three are 0; and when
the status field is absent from every record it returns rejected = 0 and
in_progress = total. -/
theorem C3_kpis (apps : List AppRow) :
    calculate_kpis apps =
      ⟨apps.length, specRejectedCount apps, specInProgressCount apps⟩ ∧
    calculate_kpis ([] : List AppRow) = ⟨0, 0, 0⟩ ∧
    ((∀ r ∈ apps, r.status = none) →
      calculate_kpis apps = ⟨apps.length, 0, apps.length⟩) := by
  have hgen : calculate_kpis apps =
      ⟨apps.length, specRejectedCount apps, specInProgressCount apps⟩ := by
    rcases heq : apps with _ | ⟨a, t⟩
    · decide
    · rw [← heq]
      have hne : apps.isEmpty = false := by rw [heq]; rfl
      rw [calculate_kpis, hne]
      simp only [Bool.false_eq_true, if_false]
      by_cases hall : apps.all (fun r => r.status = none)
      · rw [if_pos hall]
        have hprop := List.all_eq_true.mp hall
        have hr : specRejectedCount apps = 0 :=
          List.countP_eq_zero.mpr (fun r hr => by
            have := of_decide_eq_true (hprop r hr)
            simp [this])
        have hp : specInProgressCount apps = apps.length :=
          List.countP_eq_length.mpr (fun r hr => by
            have := of_decide_eq_true (hprop r hr)
            simp [this])
        rw [hr, hp]
      · rw [if_neg hall]
        have h1 : (apps.filter (fun r => r.status = some rejectedStr)).length =
            specRejectedCount apps := (List.countP_eq_length_filter _ _).symm
        have h2 : (apps.filter (fun r =>
            !(r.status = some offerReceivedStr || r.status = some rejectedStr))).length =
            specInProgressCount apps := by
          rw [specInProgressCount, List.countP_eq_length_filter]
          refine congrArg List.length (List.filter_congr (fun r _ => ?_))
          by_cases hO : r.status = some offerReceivedStr <;>
            by_cases hR : r.status = some rejectedStr <;> simp [hO, hR]
        rw [h1, h2]
  refine ⟨hgen, by decide, fun habs => ?_⟩
  rw [hgen]
  have hr : specRejectedCount apps = 0 :=
    List.countP_eq_zero.mpr (fun r hr => by simp [habs r hr])
  have hp : specInProgressCount apps = apps.length :=
    List.countP_eq_length.mpr (fun r hr => by simp [habs r hr])
  rw [hr, hp]

/-- C3 witness: the statement instantiated on a concrete two-element list in
which every status field is absent, discharging the hypothesis of the
defensive-default clause. -/
theorem C3_witness :
    calculate_kpis ([{ companyName := ['A'] }, { companyName := ['B'] }] : List AppRow) =
      ⟨2, 0, 2⟩ :=
  (C3_kpis [{ companyName := ['A'] }, { companyName := ['B'] }]).2.2 (by decide)

/-- C4: toggling upvote or bookmark membership twice with the same user
restores the member set: membership afterwards coincides with the original
membership for every user; a user not in the set is added by the first
application and removed exactly by the second; and for a duplicate-free set
the count is restored as well. -/
theorem C4_toggle_double (l : List Str) (u : Str) :
    (∀ v, v ∈ toggle_membership (toggle_membership l u) u ↔ v ∈ l) ∧
    (u ∉ l → u ∈ toggle_membership l u ∧
      toggle_membership (toggle_membership l u) u = l) ∧
    (l.Nodup → (toggle_membership (toggle_membership l u) u).length = l.length) := by
  by_cases hu : u ∈ l
  · have h1 : toggle_membership l u = l.filter (fun v => (v ≠ u : Bool)) := by
      rw [toggle_membership, if_pos hu]
    have h2 : u ∉ l.filter (fun v => (v ≠ u : Bool)) := by
      intro hmem
      exact absurd rfl (of_decide_eq_true (List.mem_filter.mp hmem).2)
    have h3 : toggle_membership (toggle_membership l u) u =
        l.filter (fun v => (v ≠ u : Bool)) ++ [u] := by
      rw [h1, toggle_membership, if_neg h2]
    refine ⟨fun v => ?_, fun hN => absurd hu hN, fun hnd => ?_⟩
    · rw [h3]
      by_cases hv : v = u
      · subst hv
        simp [hu]
      · simp [List.mem_append, List.mem_filter, hv]
    · rw [h3, List.length_append, List.length_singleton]
      exact length_filter_ne_of_nodup l u hnd hu
  · have h1 : toggle_membership l u = l ++ [u] := by
      rw [toggle_membership, if_neg hu]
    have h2 : u ∈ l ++ [u] := by simp
    have hself : l.filter (fun v => (v ≠ u : Bool)) = l :=
      List.filter_eq_self.mpr (fun v hv => by
        simp only [decide_eq_true_eq]
        exact fun hvu => hu (hvu ▸ hv))
    have h4 : (l ++ [u]).filter (fun v => (v ≠ u : Bool)) = l := by
      rw [List.filter_append, hself]
      simp
    have h3 : toggle_membership (toggle_membership l u) u = l := by
      rw [h1, toggle_membership, if_pos h2, h4]
    exact ⟨fun v => by rw [h3], fun _ => ⟨h1 ▸ h2, h3⟩, fun _ => by rw [h3]⟩

/-- C4 witness: double toggle on a concrete one-element set with a user not
in the set restores the set and its count. -/
theorem C4_witness :
    toggle_membership (toggle_membership [['a']] ['b']) ['b'] = [['a']] ∧
    (toggle_membership (toggle_membership [['a']] ['b']) ['b']).length =
      ([['a']] : List Str).length := by
  have h := C4_toggle_double [['a']] ['b']
  have hn : (['b'] : Str) ∉ ([['a']] : List Str) := by decide
  exact ⟨(h.2.1 hn).2, h.2.2 (by decide)⟩

/-- An application row whose Deadline holds a bare date. -/
def c7DateRow : AppRow := { deadline := some (.date 3) }

/-- C7 counterexample: saving a list containing a bare-date Deadline does
not leave the remote collection equal to the provided list by value — the
date is converted to a midnight datetime on insertion. -/
theorem C7_counterexample :
    save_applications [] [c7DateRow] ≠ [c7DateRow] ∧
    save_applications [] [c7DateRow] =
      [{ c7DateRow with deadline := some (.datetime 3 0) }] := by
  constructor
  · decide
  · decide

/-- C7 (amended): `save_applications` replaces the remote collection with
the provided list independently of the previous remote contents (the
delete-all phase); the resulting collection has one document per provided
entry; and when no entry's Deadline is a bare date, the remote collection
afterwards exactly equals the provided list by value. -/
theorem C7_amended (remote remoteOther current : List AppRow)
    (h : ∀ r ∈ current, isBareDate r.deadline = false) :
    save_applications remote current = save_applications remoteOther current ∧
    (save_applications remote current).length = current.length ∧
    save_applications remote current = current := by
  refine ⟨rfl, by simp [save_applications], ?_⟩
  show current.map rowDocValue = current
  have hid : ∀ r ∈ current, rowDocValue r = r := by
    intro r hr
    cases r with
    | mk cN st dl rf lk nt =>
      cases dl with
      | none => rfl
      | some v =>
        cases v with
        | date d =>
          have := h _ hr
          simp [isBareDate] at this
        | datetime d t => rfl
  rw [List.map_congr_left hid, List.map_id']

/-- C7 witness: on a concrete list whose Deadline is already a datetime, the
remote collection after saving equals the provided list, regardless of a
nonempty previous remote state. -/
theorem C7_witness :
    save_applications [c7DateRow]
      [{ companyName := ['A'], deadline := some (.datetime 5 0) }] =
      [{ companyName := ['A'], deadline := some (.datetime 5 0) }] :=
  (C7_amended [c7DateRow] []
    [{ companyName := ['A'], deadline := some (.datetime 5 0) }] (by decide)).2.2

/-- C8: set semantics of upvoters and bookmarkers is preserved by every
operation: every review in the collection after a create (initialized with
empty member lists) or an edit (member lists carried over) is duplicate-free
whenever every review before was, and the upvote/bookmark toggle preserves
duplicate-freeness of a member list. -/
theorem C8_set_invariant (reviews : List Review) (editIndex : Option Nat)
    (fields : Review) (newId : Str) (l : List Str) (u : Str)
    (h : ∀ r ∈ reviews, r.upvoters.Nodup ∧ r.bookmarkers.Nodup) :
    (∀ r ∈ submit_review reviews editIndex fields newId,
        r.upvoters.Nodup ∧ r.bookmarkers.Nodup) ∧
    (l.Nodup → (toggle_membership l u).Nodup) := by
  constructor
  · intro r hr
    cases editIndex with
    | none =>
      simp only [submit_review] at hr
      rcases List.mem_append.mp hr with hm | hm
      · exact h r hm
      · rw [List.mem_singleton.mp hm]
        exact ⟨List.nodup_nil, List.nodup_nil⟩
    | some i =>
      simp only [submit_review] at hr
      cases hg : reviews[i]? with
      | none =>
        rw [hg] at hr
        exact h r hr
      | some old =>
        rw [hg] at hr
        rcases List.mem_or_eq_of_mem_set hr with hm | he
        · exact h r hm
        · rw [he]
          exact h old (List.getElem?_mem hg)
  · intro hnd
    by_cases hu : u ∈ l
    · rw [toggle_membership, if_pos hu]
      exact hnd.filter _
    · rw [toggle_membership, if_neg hu]
      exact hnd.append (List.nodup_singleton u) (List.disjoint_singleton.mpr hu)

/-- C8 witness: the invariant holds after creating a review in an empty
collection, and toggling on a concrete duplicate-free member list yields a
duplicate-free list. -/
theorem C8_witness :
    (∀ r ∈ submit_review [] none {} ['n'],
        r.upvoters.Nodup ∧ r.bookmarkers.Nodup) ∧
    (toggle_membership [['a']] ['u']).Nodup := by
  have h := C8_set_invariant [] none {} ['n'] [['a']] ['u'] (by simp)
  exact ⟨h.1, h.2 (by decide)⟩

/-- C5: a review whose stipend string is "Not Specified" is treated as the
range 0-0 and is included in the filtered results whenever the requested
range has lower bound 0, for any review also passing the company and
industry filters. -/
theorem C5_not_specified (reviews : List Review) (r : Review)
    (companySearch industryFilter : Str) (hi : Int)
    (hmem : r ∈ reviews)
    (hstip : r.stipendRange = notSpecifiedStr)
    (hcomp : strContains (lowerStr r.company) (lowerStr companySearch) = true)
    (hind : industryFilter = allStr ∨ r.industry = industryFilter)
    (hhi : 0 ≤ hi) :
    r ∈ filter_reviews reviews companySearch industryFilter 0 hi := by
  refine List.mem_filter.mpr ⟨hmem, ?_⟩
  have hp : parseStipend notSpecifiedStr = some (0, 0) := by
    rw [parseStipend, if_pos rfl]
  rcases hind with hA | hI
  · simp [reviewPred, hstip, hp, hcomp, hA, hhi]
  · simp [reviewPred, hstip, hp, hcomp, hI, hhi]

/-- A concrete review with stipend "Not Specified". -/
def c5Review : Review :=
  { company := "Acme".toList, industry := "Tech".toList,
    stipendRange := notSpecifiedStr }

/-- C5 witness: the "Not Specified" review passes a 0-to-50000 range filter
with matching company and industry. -/
theorem C5_witness :
    c5Review ∈ filter_reviews [c5Review] [] "Tech".toList 0 50000 :=
  C5_not_specified [c5Review] c5Review [] "Tech".toList 50000
    (by simp) rfl (by decide) (Or.inr rfl) (by decide)

/-- C10: the stipend-range filter uses containment semantics: for a review
whose stipend parses to the range mn-mx, membership in the filtered result
holds exactly when the company and industry filters pass and lo ≤ mn and
mx ≤ hi. -/
theorem C10_range_containment (reviews : List Review) (r : Review)
    (companySearch industryFilter : Str) (lo hi mn mx : Int)
    (hmem : r ∈ reviews)
    (hparse : parseStipend r.stipendRange = some (mn, mx)) :
    r ∈ filter_reviews reviews companySearch industryFilter lo hi ↔
      (strContains (lowerStr r.company) (lowerStr companySearch) = true ∧
       (industryFilter = allStr ∨ r.industry = industryFilter) ∧
       lo ≤ mn ∧ mx ≤ hi) := by
  constructor
  · intro hin
    have hp := (List.mem_filter.mp hin).2
    simp only [reviewPred, hparse] at hp
    simp at hp
    tauto
  · intro hc
    refine List.mem_filter.mpr ⟨hmem, ?_⟩
    rcases hc with ⟨h1, h2, h3, h4⟩
    rcases h2 with hA | hI
    · simp [reviewPred, hparse, h1, hA, h3, h4]
    · simp [reviewPred, hparse, h1, hI, h3, h4]

/-- A concrete review whose stipend range 20000-120000 merely overlaps the
requested range 30000-100000. -/
def c10Review : Review :=
  { company := "Acme".toList, industry := "Tech".toList,
    stipendRange := "20000-120000".toList }

/-- C10 witness: the overlapping-but-not-contained review is excluded from
the 30000-100000 request. -/
theorem C10_witness :
    c10Review ∉ filter_reviews [c10Review] [] allStr 30000 100000 := by
  intro hin
  have h := (C10_range_containment [c10Review] c10Review [] allStr
    30000 100000 20000 120000 (by simp) (by decide)).mp hin
  exact absurd h.2.2.1 (by decide)

/-- Modelled from the spec: the stipend string is parseable as two
dash-separated integers, meaning the split yields exactly two parts and
each parses as a Python int. -/
def specTwoPartMinMax (s : Str) : Bool :=
  match pySplit '-' s with
  | [a, b] => (pyInt a).isSome && (pyInt b).isSome
  | _ => false

/-- A concrete review whose stipend "10-20-30" is not parseable as exactly
two dash-separated integers, yet whose first two chunks parse. -/
def c9Review : Review :=
  { company := "Acme".toList, industry := "Tech".toList,
    stipendRange := "10-20-30".toList }

/-- C9 counterexample: the review with stipend "10-20-30" — neither
"Not Specified" nor parseable as two dash-separated integers — is NOT
excluded: it appears in the filtered results for the request 0-100, because
the code reads only the first two dash-separated chunks. -/
theorem C9_counterexample :
    c9Review.stipendRange ≠ notSpecifiedStr ∧
    specTwoPartMinMax c9Review.stipendRange = false ∧
    c9Review ∈ filter_reviews [c9Review] [] allStr 0 100 := by
  decide

/-- The condition the code actually checks: the split on the dash has a
second chunk and the first two chunks parse as Python ints. -/
def firstTwoIntParse (s : Str) : Bool :=
  match (pySplit '-' s)[1]? with
  | none => false
  | some p1 =>
    (pyInt (pyStrip (pySplit '-' s).headI)).isSome && (pyInt (pyStrip p1)).isSome

/-- When the stipend is not "Not Specified" and its first two dash-separated
chunks do not both parse as ints, the stipend parse used by the filter
fails. -/
theorem parseStipend_eq_none (s : Str) (hns : s ≠ notSpecifiedStr)
    (hf : firstTwoIntParse s = false) : parseStipend s = none := by
  rw [parseStipend, if_neg hns]
  simp only [firstTwoIntParse] at hf
  cases hg : (pySplit '-' s)[1]? with
  | none => simp [hg]
  | some p1 =>
    cases ha : pyInt (pyStrip (pySplit '-' s).headI) with
    | none => simp [hg, ha]
    | some a =>
      cases hb : pyInt (pyStrip p1) with
      | none => simp [hg, ha, hb]
      | some b =>
        simp [hg, ha, hb] at hf

/-- C9 (amended): a review whose stipend string is neither "Not Specified"
nor such that its first two dash-separated chunks both parse as integers is
excluded from the filtered results entirely, regardless of the company,
industry, and range filters; chunks beyond the second are ignored by the
code, so a string like "10-20-30" is not excluded. -/
theorem C9_amended (reviews : List Review) (companySearch industryFilter : Str)
    (lo hi : Int) (r : Review)
    (hns : r.stipendRange ≠ notSpecifiedStr)
    (hf : firstTwoIntParse r.stipendRange = false) :
    r ∉ filter_reviews reviews companySearch industryFilter lo hi := by
  intro hin
  have hp := (List.mem_filter.mp hin).2
  have hnone := parseStipend_eq_none r.stipendRange hns hf
  simp [reviewPred, hnone] at hp

/-- A concrete review with an unparseable stipend string. -/
def c9BadReview : Review := { stipendRange := "abc".toList }

/-- C9 witness: the review with stipend "abc" is excluded from an otherwise
all-inclusive filter. -/
theorem C9_witness :
    c9BadReview ∉ filter_reviews [c9BadReview] [] allStr 0 100000 :=
  C9_amended [c9BadReview] [] allStr 0 100000 c9BadReview (by decide) (by decide)

/-- Inserting a review whose upvote count equals k prepends it to the
k-filtered part: every element skipped on the way in has a strictly larger
count. -/
theorem filter_orderedInsert_eq (k : Nat) (a : Review) (s : List Review)
    (ha : upvoteCount a = k) :
    (List.orderedInsert upvoteGE a s).filter (fun r => (upvoteCount r = k : Bool)) =
      a :: s.filter (fun r => (upvoteCount r = k : Bool)) := by
  induction s with
  | nil => simp [ha]
  | cons b t ih =>
    rw [List.orderedInsert]
    by_cases hab : upvoteGE a b
    · rw [if_pos hab]
      simp [List.filter_cons, ha]
    · rw [if_neg hab]
      have hbk : upvoteCount b ≠ k := by
        intro hb
        exact hab (by show upvoteCount b ≤ upvoteCount a; rw [hb, ha])
      simp [List.filter_cons, hbk, ih]

/-- Inserting a review whose upvote count differs from k leaves the
k-filtered part unchanged. -/
theorem filter_orderedInsert_ne (k : Nat) (a : Review) (s : List Review)
    (ha : upvoteCount a ≠ k) :
    (List.orderedInsert upvoteGE a s).filter (fun r => (upvoteCount r = k : Bool)) =
      s.filter (fun r => (upvoteCount r = k : Bool)) := by
  induction s with
  | nil => simp [ha]
  | cons b t ih =>
    rw [List.orderedInsert]
    by_cases hab : upvoteGE a b
    · rw [if_pos hab]
      simp [List.filter_cons, ha]
    · rw [if_neg hab]
      simp [List.filter_cons, ih]

/-- Stability of the ranking: for every upvote count k, the reviews with
exactly k upvotes appear in the sorted output in their original input
order. -/
theorem filter_insertionSort_eq (k : Nat) (l : List Review) :
    (List.insertionSort upvoteGE l).filter (fun r => (upvoteCount r = k : Bool)) =
      l.filter (fun r => (upvoteCount r = k : Bool)) := by
  induction l with
  | nil => rfl
  | cons a t ih =>
    rw [List.insertionSort]
    by_cases ha : upvoteCount a = k
    · rw [filter_orderedInsert_eq k a _ ha, ih]
      simp [List.filter_cons, ha]
    · rw [filter_orderedInsert_ne k a _ ha, ih]
      simp [List.filter_cons, ha]

/-- Five concrete reviews with upvote counts 3, 1, 4, 1, 5 in input order. -/
def c6Input : List Review :=
  [{ id := ['a'], upvoters := [['p'], ['q'], ['r']] },
   { id := ['b'], upvoters := [['p']] },
   { id := ['c'], upvoters := [['p'], ['q'], ['r'], ['s']] },
   { id := ['d'], upvoters := [['t']] },
   { id := ['e'], upvoters := [['p'], ['q'], ['r'], ['s'], ['t']] }]

/-- C6: review ranking sorts by upvote count in descending order, is a
permutation of the input, is stable (for every count k the k-count reviews
keep their input order), and the displayed result is the ranking truncated
to the top 5; on the concrete input with counts [3,1,4,1,5] the output
counts are [5,4,3,1,1] with the two count-1 reviews in original relative
order (id b before id d). -/
theorem C6_rank :
    (∀ l : List Review,
      List.Sorted upvoteGE (rank_reviews l) ∧
      List.Perm (rank_reviews l) l ∧
      (∀ k, (rank_reviews l).filter (fun r => (upvoteCount r = k : Bool)) =
        l.filter (fun r => (upvoteCount r = k : Bool))) ∧
      (displayed_reviews l).length ≤ 5 ∧
      ∃ rest, rank_reviews l = displayed_reviews l ++ rest) ∧
    (rank_reviews c6Input).map (fun r => (r.id, upvoteCount r)) =
      [(['e'], 5), (['c'], 4), (['a'], 3), (['b'], 1), (['d'], 1)] := by
  constructor
  · intro l
    refine ⟨List.sorted_insertionSort upvoteGE l,
      List.perm_insertionSort upvoteGE l,
      fun k => filter_insertionSort_eq k l, ?_,
      ⟨(rank_reviews l).drop 5, (List.take_append_drop 5 _).symm⟩⟩
    rw [displayed_reviews, List.length_take]
    exact min_le_left _ _
  · decide

/-! Structural lemmas about `pySplit`, `pyStrip` and the character classes,
used to relate `validate_stipend` to the spec's regular expression. -/

theorem pySplit_ne_nil (sep : Char) (s : Str) : pySplit sep s ≠ [] := by
  cases s with
  | nil => simp [pySplit]
  | cons c cs =>
    simp only [pySplit]
    split <;> simp

theorem pySplit_single_of_not_mem (sep : Char) (p : Str) (h : sep ∉ p) :
    pySplit sep p = [p] := by
  induction p with
  | nil => rfl
  | cons c cs ih =>
    have hc : ¬ c = sep := fun he => h (he ▸ List.mem_cons_self c cs)
    have hcs : sep ∉ cs := fun hm => h (List.mem_cons_of_mem c hm)
    simp only [pySplit, if_neg hc]
    rw [ih hcs]
    rfl

theorem eq_of_pySplit_single (sep : Char) (s p : Str)
    (h : pySplit sep s = [p]) : s = p ∧ sep ∉ p := by
  induction s generalizing p with
  | nil =>
    simp only [pySplit] at h
    injection h with h1 _
    rw [← h1]
    exact ⟨rfl, by simp⟩
  | cons c cs ih =>
    simp only [pySplit] at h
    by_cases hc : c = sep
    · rw [if_pos hc] at h
      injection h with _ h2
      exact absurd h2 (pySplit_ne_nil sep cs)
    · rw [if_neg hc] at h
      obtain ⟨q, qs, hq⟩ := List.exists_cons_of_ne_nil (pySplit_ne_nil sep cs)
      rw [hq] at h
      simp only [List.headI_cons, List.tail_cons] at h
      injection h with h1 h2
      subst h2
      obtain ⟨hcs, hnq⟩ := ih q hq
      subst hcs
      rw [← h1]
      refine ⟨rfl, ?_⟩
      simp only [List.mem_cons, not_or]
      exact ⟨fun he => hc he.symm, hnq⟩

theorem pySplit_pair_of (sep : Char) (p0 p1 : Str)
    (h0 : sep ∉ p0) (h1 : sep ∉ p1) :
    pySplit sep (p0 ++ sep :: p1) = [p0, p1] := by
  induction p0 with
  | nil =>
    simp only [List.nil_append, pySplit, if_pos rfl]
    rw [pySplit_single_of_not_mem sep p1 h1]
    simp
  | cons c cs ih =>
    have hc : ¬ c = sep := fun he => h0 (he ▸ List.mem_cons_self c cs)
    have hcs : sep ∉ cs := fun hm => h0 (List.mem_cons_of_mem c hm)
    simp only [List.cons_append, pySplit, List.append_eq, if_neg hc]
    rw [ih hcs]
    rfl

theorem of_pySplit_pair (sep : Char) (s p0 p1 : Str)
    (h : pySplit sep s = [p0, p1]) :
    s = p0 ++ sep :: p1 ∧ sep ∉ p0 ∧ sep ∉ p1 := by
  induction s generalizing p0 with
  | nil => simp [pySplit] at h
  | cons c cs ih =>
    simp only [pySplit] at h
    by_cases hc : c = sep
    · rw [if_pos hc] at h
      injection h with h1 h2
      obtain ⟨hcs, hn1⟩ := eq_of_pySplit_single sep cs p1 h2
      subst hcs
      refine ⟨by rw [← h1, hc]; rfl, by rw [← h1]; simp, hn1⟩
    · rw [if_neg hc] at h
      obtain ⟨q, qs, hq⟩ := List.exists_cons_of_ne_nil (pySplit_ne_nil sep cs)
      rw [hq] at h
      simp only [List.headI_cons, List.tail_cons] at h
      injection h with h1 h2
      rw [h2] at hq
      obtain ⟨hcs, hnq, hn1⟩ := ih q hq
      refine ⟨?_, ?_, hn1⟩
      · rw [← h1, hcs, List.cons_append]
      · rw [← h1]
        simp only [List.mem_cons, not_or]
        exact ⟨fun he => hc he.symm, hnq⟩

theorem dropWhile_append_all {α : Type} (p : α → Bool) (w t : List α)
    (hw : w.all p = true) : (w ++ t).dropWhile p = t.dropWhile p := by
  induction w with
  | nil => rfl
  | cons c cs ih =>
    simp only [List.all_cons, Bool.and_eq_true] at hw
    rw [List.cons_append, List.dropWhile_cons, hw.1]
    rw [if_pos rfl]
    exact ih hw.2

theorem not_space_of_digit (c : Char) (h : c.isDigit = true) :
    isPySpace c = false := by
  cases hsp : isPySpace c
  · rfl
  · exfalso
    simp only [isPySpace, Bool.or_eq_true, decide_eq_true_eq] at hsp
    rcases hsp with ((((h1 | h1) | h1) | h1) | h1) | h1 <;> subst h1 <;>
      exact absurd h (by decide)

theorem pyIsDigitStr_iff (s : Str) :
    pyIsDigitStr s = true ↔ s ≠ [] ∧ s.all Char.isDigit = true := by
  rw [pyIsDigitStr, Bool.and_eq_true]
  constructor
  · rintro ⟨h1, h2⟩
    refine ⟨fun he => ?_, h2⟩
    subst he
    exact absurd h1 (by decide)
  · rintro ⟨h1, h2⟩
    refine ⟨?_, h2⟩
    cases s with
    | nil => exact absurd rfl h1
    | cons a t => rfl

theorem pyStrip_parts (w d wq : Str) (hw : w.all isPySpace = true)
    (hd : d ≠ []) (hdig : d.all Char.isDigit = true)
    (hwq : wq.all isPySpace = true) :
    pyStrip (w ++ (d ++ wq)) = d := by
  rw [pyStrip, dropWhile_append_all _ w _ hw]
  have h1 : (d ++ wq).dropWhile isPySpace = d ++ wq := by
    obtain ⟨c, dt, rfl⟩ := List.exists_cons_of_ne_nil hd
    simp only [List.all_cons, Bool.and_eq_true] at hdig
    rw [List.cons_append, List.dropWhile_cons, not_space_of_digit c hdig.1]
    simp
  rw [h1, List.reverse_append,
    dropWhile_append_all _ wq.reverse _ (by simpa using hwq)]
  have h2 : d.reverse.dropWhile isPySpace = d.reverse := by
    have hdr : d.reverse ≠ [] := by simpa using hd
    obtain ⟨c2, t2, heq2⟩ := List.exists_cons_of_ne_nil hdr
    have hc2 : c2.isDigit = true := by
      have hmem : c2 ∈ d := by
        rw [← List.mem_reverse, heq2]
        exact List.mem_cons_self c2 t2
      exact List.all_eq_true.mp hdig c2 hmem
    rw [heq2, List.dropWhile_cons, not_space_of_digit c2 hc2]
    simp
  rw [h2, List.reverse_reverse]

theorem pyStrip_decomp (p : Str) :
    ∃ w wq, p = w ++ (pyStrip p ++ wq) ∧
      w.all isPySpace = true ∧ wq.all isPySpace = true := by
  refine ⟨p.takeWhile isPySpace,
    ((p.dropWhile isPySpace).reverse.takeWhile isPySpace).reverse, ?_, ?_, ?_⟩
  · rw [pyStrip]
    conv_lhs => rw [← List.takeWhile_append_dropWhile (p := isPySpace) (l := p)]
    congr 1
    calc p.dropWhile isPySpace
        = (p.dropWhile isPySpace).reverse.reverse := (List.reverse_reverse _).symm
      _ = ((p.dropWhile isPySpace).reverse.takeWhile isPySpace ++
            (p.dropWhile isPySpace).reverse.dropWhile isPySpace).reverse := by
            rw [List.takeWhile_append_dropWhile]
      _ = ((p.dropWhile isPySpace).reverse.dropWhile isPySpace).reverse ++
            ((p.dropWhile isPySpace).reverse.takeWhile isPySpace).reverse := by
            rw [List.reverse_append]
  · exact List.all_eq_true.mpr (fun c hc => List.mem_takeWhile_imp hc)
  · rw [List.all_reverse]
    exact List.all_eq_true.mpr (fun c hc => List.mem_takeWhile_imp hc)

theorem dash_not_mem_parts (w d wq : Str) (hw : w.all isPySpace = true)
    (hd : d.all Char.isDigit = true) (hwq : wq.all isPySpace = true) :
    '-' ∉ w ++ (d ++ wq) := by
  intro hm
  rcases List.mem_append.mp hm with h | h
  · exact absurd (List.all_eq_true.mp hw _ h) (by decide)
  · rcases List.mem_append.mp h with h2 | h2
    · exact absurd (List.all_eq_true.mp hd _ h2) (by decide)
    · exact absurd (List.all_eq_true.mp hwq _ h2) (by decide)

/-- Modelled from the spec: membership in the language of the regular
expression anchored digits-plus, whitespace-star, dash, whitespace-star,
digits-plus (the spec's pattern): the string decomposes as a nonempty digit
run, optional whitespace, a dash, optional whitespace, and a nonempty digit
run, with nothing before or after. -/
def StipendRegexMatch (s : Str) : Prop :=
  ∃ d1 w1 w2 d2 : Str,
    s = d1 ++ w1 ++ '-' :: (w2 ++ d2) ∧
    d1 ≠ [] ∧ d1.all Char.isDigit = true ∧
    w1.all isPySpace = true ∧ w2.all isPySpace = true ∧
    d2 ≠ [] ∧ d2.all Char.isDigit = true

/-- The language of the same pattern relaxed with optional whitespace at
both ends of the string (anchored whitespace-star, digits-plus,
whitespace-star, dash, whitespace-star, digits-plus, whitespace-star). -/
def StipendRegexMatchPadded (s : Str) : Prop :=
  ∃ w0 d1 w1 w2 d2 w3 : Str,
    s = w0 ++ d1 ++ w1 ++ '-' :: (w2 ++ d2 ++ w3) ∧
    w0.all isPySpace = true ∧
    d1 ≠ [] ∧ d1.all Char.isDigit = true ∧
    w1.all isPySpace = true ∧ w2.all isPySpace = true ∧
    d2 ≠ [] ∧ d2.all Char.isDigit = true ∧
    w3.all isPySpace = true

/-- C2 counterexample: the string with a leading space before the first
digit run is accepted by `validate_stipend` (each part is stripped before
the digit test), but it is not in the language of the spec's anchored
regular expression, which allows whitespace only around the dash. -/
theorem C2_counterexample :
    validate_stipend (" 1-2".toList) = true ∧ (" 1-2".toList : Str) ≠ [] ∧
    ¬ StipendRegexMatch (" 1-2".toList) := by
  refine ⟨by decide, by decide, ?_⟩
  rintro ⟨d1, w1, w2, d2, heq, hne, hdig, -, -, -, -⟩
  obtain ⟨c, dt, rfl⟩ := List.exists_cons_of_ne_nil hne
  have h0 : (" 1-2".toList : Str) = ' ' :: "1-2".toList := rfl
  rw [h0, List.cons_append, List.cons_append] at heq
  injection heq with hc _
  rw [← hc] at hdig
  exact absurd (List.all_eq_true.mp hdig ' ' (List.mem_cons_self _ _)) (by decide)

/-- C2 (amended): `validate_stipend` accepts a string exactly when it is
empty or lies in the language of the regular expression extended with
optional whitespace at both ends: whitespace is allowed not only around the
dash but also before the first and after the second digit run, because each
dash-separated part is stripped before the digit test. -/
theorem C2_amended (s : Str) :
    validate_stipend s = true ↔ (s = [] ∨ StipendRegexMatchPadded s) := by
  constructor
  · intro hv
    by_cases hs : s = []
    · exact Or.inl hs
    refine Or.inr ?_
    rw [validate_stipend,
      if_neg (fun hE => hs (List.isEmpty_iff.mp hE))] at hv
    rw [Bool.and_eq_true] at hv
    obtain ⟨hlen, hall⟩ := hv
    obtain ⟨p0, p1, hps⟩ := List.length_eq_two.mp (of_decide_eq_true hlen)
    have hall' := List.all_eq_true.mp hall
    have hp0 : pyIsDigitStr (pyStrip p0) = true := hall' p0 (by rw [hps]; simp)
    have hp1 : pyIsDigitStr (pyStrip p1) = true := hall' p1 (by rw [hps]; simp)
    obtain ⟨hs_eq, hn0, hn1⟩ := of_pySplit_pair '-' s p0 p1 hps
    obtain ⟨w0, wq0, hdec0, hw0, hwq0⟩ := pyStrip_decomp p0
    obtain ⟨w2, wq2, hdec1, hw2, hwq2⟩ := pyStrip_decomp p1
    obtain ⟨hne0, hdig0⟩ := (pyIsDigitStr_iff _).mp hp0
    obtain ⟨hne1, hdig1⟩ := (pyIsDigitStr_iff _).mp hp1
    refine ⟨w0, pyStrip p0, wq0, w2, pyStrip p1, wq2, ?_,
      hw0, hne0, hdig0, hwq0, hw2, hne1, hdig1, hwq2⟩
    rw [hs_eq]
    conv_lhs => rw [hdec0, hdec1]
    simp [List.append_assoc]
  · rintro (rfl | ⟨w0, d1, w1, w2, d2, w3, rfl, hw0, hd1ne, hd1, hw1, hw2, hd2ne, hd2, hw3⟩)
    · rfl
    have hassoc : w0 ++ d1 ++ w1 ++ '-' :: (w2 ++ d2 ++ w3) =
        (w0 ++ (d1 ++ w1)) ++ '-' :: (w2 ++ (d2 ++ w3)) := by
      simp [List.append_assoc]
    have hn0 : '-' ∉ w0 ++ (d1 ++ w1) := dash_not_mem_parts w0 d1 w1 hw0 hd1 hw1
    have hn1 : '-' ∉ w2 ++ (d2 ++ w3) := dash_not_mem_parts w2 d2 w3 hw2 hd2 hw3
    have hps := pySplit_pair_of '-' (w0 ++ (d1 ++ w1)) (w2 ++ (d2 ++ w3)) hn0 hn1
    rw [validate_stipend]
    split
    · rfl
    · rw [hassoc, hps]
      have hstr0 : pyStrip (w0 ++ (d1 ++ w1)) = d1 :=
        pyStrip_parts w0 d1 w1 hw0 hd1ne hd1 hw1
      have hstr1 : pyStrip (w2 ++ (d2 ++ w3)) = d2 :=
        pyStrip_parts w2 d2 w3 hw2 hd2ne hd2 hw3
      simp [hstr0, hstr1, pyIsDigitStr_iff, hd1ne, hd1, hd2ne, hd2]

end App
